import Mathlib

/-!
Verification of the incremental backup reconciler of `git-local-backup`
(`src/main.go`), as a shallow embedding in Lean 4.

Modelling conventions, matched to the Go source:

* Go strings are modelled as `List Char` (`Str`).  `filepath.FromSlash` is the
  identity on the platforms of interest and is not modelled.
* The on-disk state of the backup tree's regular files is an association list
  `Fs` from relative path to file content.  `copyFile` becomes `updateFs`
  (byte-for-byte replacement of the destination's content) and `os.Remove` on a
  file becomes `removeFs`.
* The `backedUpFileRelPaths` set (`map[string]struct{}`) is modelled as a list
  of paths used with set semantics: Go's `delete` removes the key, which is
  `removeKey` (filter out every occurrence).
* External `git` invocations are external collaborators: they enter the model
  as oracle parameters.  `exec.Command(...).Output()` yields a stdout and a
  possible error; where the Go code discards the error with `_`, the model's
  definition visibly ignores that component.
* Directory structure (for the backup-snapshot walk, the prune pass and the
  force-include expansion) is modelled by the tree type `FsTree`; relative
  paths in that world are component lists (`List Str`), the backup root's
  relative path `"."` being the empty component list `[]`.
-/

namespace GLB

abbrev Str : Type := List Char

/-- An association list from relative file path to file content: the regular
files of a directory tree as seen on disk. -/
abbrev Fs : Type := List (Str × Str)

/-- Content of the file at path `p`, `none` when no such file exists
(models `os.Stat` failing with not-exist / reading the file). -/
def lookupFs : Fs → Str → Option Str
  | [], _ => none
  | e :: rest, p => if e.1 = p then some e.2 else lookupFs rest p

/-- Write content `c` to path `p` (models `copyFile`'s effect on the
destination tree: overwrite if present, create otherwise). -/
def updateFs (fs : Fs) (p c : Str) : Fs :=
  if (lookupFs fs p).isSome then
    fs.map (fun e => if e.1 = p then (p, c) else e)
  else
    fs ++ [(p, c)]

/-- Delete the file at path `p` (models `os.Remove` succeeding). -/
def removeFs (fs : Fs) (p : Str) : Fs :=
  fs.filter (fun e => decide (e.1 ≠ p))

/-- The set of file paths present in `fs` (the walk's file snapshot). -/
def keysFs (fs : Fs) : List Str :=
  fs.map (fun e => e.1)

/-- Go's `delete(set, p)` on a `map[string]struct{}` modelled on lists:
remove the key `p`. -/
def removeKey (l : List Str) (p : Str) : List Str :=
  l.filter (fun q => decide (q ≠ p))

/-- A mutating action the reconciler performs (live run) or reports
(dry run): `+ path` is a copy, `- path` a deletion. -/
inductive Action : Type where
  | copy (p : Str)
  | del (p : Str)
deriving DecidableEq, Repr

/-- Reconciler state: the backup tree's files on disk, the remaining
`backedUpFileRelPaths` set, the copy/delete actions performed or reported so
far, and the per-file errors printed so far. -/
structure RSt : Type where
  backup : Fs
  pending : List Str
  acts : List Action
  errs : List Str
deriving DecidableEq, Repr

/-- One iteration of the copy/skip loop of `main` (src/main.go lines
219-251) for candidate path `p`.

* `dry` is the `-dry-run` flag.
* `d` is the oracle for `git diff --no-index --name-only src dst`: from the
  source content and the backup content it yields the command's stdout and its
  possible error.  The Go code binds the error to `_`, so only the stdout
  (`.1`) is consulted: empty stdout means "unchanged, skip".
* `src` is the project-side file system; `lookupFs src p = none` models
  `os.Stat` reporting the source file gone. -/
def copyStep (dry : Bool) (d : Str → Option Str → Str × Option Str)
    (src : Fs) (st : RSt) (p : Str) : RSt :=
  match lookupFs src p with
  | none => st
  | some c =>
    if p ∈ st.pending then
      let pend := removeKey st.pending p
      if (d c (lookupFs st.backup p)).1 = [] then
        { st with pending := pend }
      else if dry then
        { st with pending := pend, acts := st.acts ++ [Action.copy p] }
      else
        { st with backup := updateFs st.backup p c, pending := pend,
                  acts := st.acts ++ [Action.copy p] }
    else if dry then
      { st with acts := st.acts ++ [Action.copy p] }
    else
      { st with backup := updateFs st.backup p c,
                acts := st.acts ++ [Action.copy p] }

/-- The whole copy/skip pass: fold `copyStep` over the candidate list. -/
def copyPass (dry : Bool) (d : Str → Option Str → Str × Option Str)
    (src : Fs) (st : RSt) (cands : List Str) : RSt :=
  cands.foldl (copyStep dry d src) st

/-- One iteration of the delete loop (src/main.go lines 254-263) for a path
`p` still in the backup file set.  `delOk` is the oracle for whether
`os.Remove` succeeds; on failure the error is printed (recorded in `errs`)
and the loop continues. -/
def delStep (dry : Bool) (delOk : Str → Bool) (st : RSt) (p : Str) : RSt :=
  if dry then
    { st with acts := st.acts ++ [Action.del p] }
  else if delOk p then
    { st with backup := removeFs st.backup p, acts := st.acts ++ [Action.del p] }
  else
    { st with errs := st.errs ++ [p] }

/-- The delete pass: iterate over the paths remaining in the backup file
set after the copy/skip pass. -/
def deletePass (dry : Bool) (delOk : Str → Bool) (st : RSt) : RSt :=
  st.pending.foldl (delStep dry delOk) st

/-- Copy/skip pass then delete pass, starting from the walked snapshot:
the pending set is initialised to all file paths found in the backup tree.
(The prune pass acts on directories, not on `Fs`; it is modelled
separately.) -/
def reconcile (dry : Bool) (d : Str → Option Str → Str × Option Str)
    (delOk : Str → Bool) (src : Fs) (cands : List Str) (backup : Fs) : RSt :=
  deletePass dry delOk
    (copyPass dry d src ⟨backup, keysFs backup, [], []⟩ cands)

/-- The honest content-comparison oracle: `git diff --no-index --name-only`
prints nothing when the two files are byte-identical, and a non-empty
path listing (exiting 1) when they differ. -/
def diffTrue (c : Str) (b : Option Str) : Str × Option Str :=
  if b = some c then ([], none) else ([Char.ofNat 100], some [Char.ofNat 49])

/-- A diff invocation that fails for a reason other than the files
differing: empty stdout together with an error, which the Go code discards. -/
def diffBroken (msg : Str) : Str → Option Str → Str × Option Str :=
  fun _ _ => ([], some msg)

/-- A live reconciler run with the honest comparison oracle and every
deletion succeeding. -/
def runReconcile (src : Fs) (cands : List Str) (backup : Fs) : RSt :=
  reconcile false diffTrue (fun _ => true) src cands backup

/-! ### Basic facts about the file-system model -/

@[simp] theorem lookupFs_nil (p : Str) : lookupFs [] p = none := rfl

@[simp] theorem lookupFs_cons (e : Str × Str) (rest : Fs) (p : Str) :
    lookupFs (e :: rest) p = if e.1 = p then some e.2 else lookupFs rest p := rfl

theorem mem_removeKey {l : List Str} {p q : Str} :
    q ∈ removeKey l p ↔ q ∈ l ∧ q ≠ p := by
  simp [removeKey, List.mem_filter]

theorem lookupFs_mapReplace_ne (fs : Fs) (p c q : Str) (h : q ≠ p) :
    lookupFs (fs.map (fun e => if e.1 = p then (p, c) else e)) q
      = lookupFs fs q := by
  induction fs with
  | nil => simp
  | cons e rest ih =>
    by_cases he : e.1 = p
    · have hpq : ¬ p = q := fun hh => h hh.symm
      have heq : ¬ e.1 = q := by rw [he]; exact hpq
      simp [he, hpq, heq, ih]
    · simp [he, ih]

theorem lookupFs_appendNew (fs : Fs) (p c q : Str) (h : q ≠ p) :
    lookupFs (fs ++ [(p, c)]) q = lookupFs fs q := by
  induction fs with
  | nil => simp [Ne.symm h]
  | cons e rest ih => by_cases he : e.1 = q <;> simp [he, ih]

theorem lookupFs_update_self (fs : Fs) (p c : Str) :
    lookupFs (updateFs fs p c) p = some c := by
  unfold updateFs
  split
  case isTrue h =>
    induction fs with
    | nil => simp at h
    | cons e rest ih =>
      by_cases he : e.1 = p
      · simp [he]
      · simp only [lookupFs_cons, he, if_neg he] at h
        simpa [he] using ih h
  case isFalse h =>
    induction fs with
    | nil => simp
    | cons e rest ih =>
      by_cases he : e.1 = p
      · simp [he] at h
      · simp only [lookupFs_cons, he, if_neg he] at h
        simpa [he] using ih h

theorem lookupFs_update_ne (fs : Fs) (p c q : Str) (h : q ≠ p) :
    lookupFs (updateFs fs p c) q = lookupFs fs q := by
  unfold updateFs
  split
  · exact lookupFs_mapReplace_ne fs p c q h
  · exact lookupFs_appendNew fs p c q h

@[simp] theorem removeFs_nil (p : Str) : removeFs [] p = [] := rfl

@[simp] theorem removeFs_cons (e : Str × Str) (rest : Fs) (p : Str) :
    removeFs (e :: rest) p
      = if e.1 = p then removeFs rest p else e :: removeFs rest p := by
  by_cases he : e.1 = p <;> simp [removeFs, List.filter_cons, he]

theorem lookupFs_remove (fs : Fs) (p q : Str) :
    lookupFs (removeFs fs p) q = if q = p then none else lookupFs fs q := by
  induction fs with
  | nil => simp
  | cons e rest ih =>
    by_cases he : e.1 = p
    · by_cases hq : q = p
      · subst hq
        simpa [he] using ih
      · have heq : ¬ e.1 = q := by rw [he]; exact Ne.symm hq
        simp [he, hq, heq, Ne.symm hq, ih]
    · by_cases heq : e.1 = q
      · have hq : ¬ q = p := by rw [← heq]; exact he
        simp [he, hq, heq]
      · simp [he, heq, ih]

theorem mem_keysFs_iff {fs : Fs} {p : Str} :
    p ∈ keysFs fs ↔ lookupFs fs p ≠ none := by
  induction fs with
  | nil => simp [keysFs]
  | cons e rest ih =>
    by_cases he : e.1 = p
    · simp [keysFs, he]
    · simp only [keysFs, List.map_cons, List.mem_cons, lookupFs_cons, he,
        if_neg he] at ih ⊢
      constructor
      · intro hh
        rcases hh with hh | hh
        · exact absurd hh.symm he
        · exact ih.mp hh
      · intro hh
        exact Or.inr (ih.mpr hh)

/-! ### The copy/skip pass, per candidate -/

theorem copyStep_src_none (dry : Bool) (d : Str → Option Str → Str × Option Str)
    (src : Fs) (st : RSt) (p : Str) (h : lookupFs src p = none) :
    copyStep dry d src st p = st := by
  simp [copyStep, h]

/-- Characterisation of the delete loop (src/main.go lines 254-263) folded
over an arbitrary path list `l`. -/
theorem delLoop_char (delOk : Str → Bool) (l : List Str) (st : RSt) :
    (∀ q, lookupFs (l.foldl (delStep false delOk) st).backup q
        = if q ∈ l ∧ delOk q = true then none else lookupFs st.backup q) ∧
    (l.foldl (delStep false delOk) st).acts
        = st.acts ++ (l.filter delOk).map Action.del ∧
    (l.foldl (delStep false delOk) st).errs
        = st.errs ++ l.filter (fun p => !(delOk p)) ∧
    (l.foldl (delStep false delOk) st).pending = st.pending := by
  induction l generalizing st with
  | nil => simp
  | cons x rest ih =>
    by_cases hx : delOk x = true
    · have hstep : delStep false delOk st x
          = { st with backup := removeFs st.backup x,
                      acts := st.acts ++ [Action.del x] } := by
        simp [delStep, hx]
      refine ⟨?_, ?_, ?_, ?_⟩
      · intro q
        rw [List.foldl_cons, hstep]
        rw [(ih _).1 q]
        by_cases hqr : q ∈ rest ∧ delOk q = true
        · simp [hqr, hqr.1, hqr.2]
        · by_cases hqx : q = x
          · subst hqx
            simp [hqr, hx, lookupFs_remove]
          · simp only [hqr, if_false, if_neg hqr]
            rw [lookupFs_remove]
            simp only [hqx, if_neg hqx]
            have : ¬ (q ∈ x :: rest ∧ delOk q = true) := by
              intro hc
              rcases hc with ⟨hm, hd⟩
              rcases List.mem_cons.mp hm with h1 | h1
              · exact hqx h1
              · exact hqr ⟨h1, hd⟩
            rw [if_neg this]
            simp
      · rw [List.foldl_cons, hstep, (ih _).2.1]
        simp [hx]
      · rw [List.foldl_cons, hstep, (ih _).2.2.1]
        simp [hx]
      · rw [List.foldl_cons, hstep, (ih _).2.2.2]
    · have hstep : delStep false delOk st x
          = { st with errs := st.errs ++ [x] } := by
        simp [delStep, hx]
      refine ⟨?_, ?_, ?_, ?_⟩
      · intro q
        rw [List.foldl_cons, hstep, (ih _).1 q]
        by_cases hqr : q ∈ rest ∧ delOk q = true
        · simp [hqr, hqr.1, hqr.2]
        · have : ¬ (q ∈ x :: rest ∧ delOk q = true) := by
            intro hc
            rcases hc with ⟨hm, hd⟩
            rcases List.mem_cons.mp hm with h1 | h1
            · subst h1
              exact hx hd
            · exact hqr ⟨h1, hd⟩
          rw [if_neg hqr, if_neg this]
      · rw [List.foldl_cons, hstep, (ih _).2.1]
        simp [hx]
      · rw [List.foldl_cons, hstep, (ih _).2.2.1]
        simp [hx]
      · rw [List.foldl_cons, hstep, (ih _).2.2.2]

/-- C1: in the Reconciler's copy/skip pass, for every candidate relative
path: if the source file no longer exists, the candidate is skipped without
removing the path from the backup file set; if the path is present in the
backup file set, it is removed from that set and a content comparison is
performed, with a copy exactly when the contents differ; if the path is
absent from the backup file set, it is copied unconditionally. -/
theorem copy_skip_cases (src B : Fs) (pend : List Str) (acts : List Action)
    (errs : List Str) (p : Str) :
    (lookupFs src p = none →
      copyStep false diffTrue src ⟨B, pend, acts, errs⟩ p
        = ⟨B, pend, acts, errs⟩) ∧
    (∀ c, lookupFs src p = some c → p ∈ pend →
      (lookupFs B p = some c →
        copyStep false diffTrue src ⟨B, pend, acts, errs⟩ p
          = ⟨B, removeKey pend p, acts, errs⟩) ∧
      (lookupFs B p ≠ some c →
        copyStep false diffTrue src ⟨B, pend, acts, errs⟩ p
          = ⟨updateFs B p c, removeKey pend p, acts ++ [Action.copy p], errs⟩)) ∧
    (∀ c, lookupFs src p = some c → p ∉ pend →
      copyStep false diffTrue src ⟨B, pend, acts, errs⟩ p
        = ⟨updateFs B p c, pend, acts ++ [Action.copy p], errs⟩) := by
  refine ⟨?_, ?_, ?_⟩
  · intro h
    simp [copyStep, h]
  · intro c hc hp
    constructor
    · intro hb
      simp [copyStep, hc, hp, diffTrue, hb]
    · intro hb
      simp [copyStep, hc, hp, diffTrue, hb]
  · intro c hc hp
    simp [copyStep, hc, hp]

/-- Witness for C1: a candidate present in the backup set with differing
content is claimed and copied. -/
theorem copy_skip_cases_witness :
    copyStep false diffTrue [(['p'], ['a'])]
      ⟨[(['p'], ['b'])], [['p']], [], []⟩ ['p']
      = ⟨updateFs [(['p'], ['b'])] ['p'] ['a'], removeKey [['p']] ['p'],
         [Action.copy ['p']], []⟩ := by
  have h := (copy_skip_cases [(['p'], ['a'])] [(['p'], ['b'])] [['p']]
      [] [] ['p']).2.1 ['a'] (by decide) (by decide)
  exact h.2 (by decide)

/-- C10: when a candidate path is present in the backup file set and the
external content-comparison command fails (empty stdout with an error), the
failure is ignored and the empty output causes the file to be treated as
unchanged: it is claimed but not copied, and no diagnostic is recorded, even
though the contents differ. -/
theorem diff_failure_silently_skips (msg : Str) (src B : Fs)
    (pend : List Str) (acts : List Action) (errs : List Str) (p c b : Str)
    (hp : p ∈ pend) (hs : lookupFs src p = some c)
    (hb : lookupFs B p = some b) (hne : b ≠ c) :
    copyStep false (diffBroken msg) src ⟨B, pend, acts, errs⟩ p
      = ⟨B, removeKey pend p, acts, errs⟩ := by
  simp [copyStep, hs, hp, diffBroken]

/-- Witness for C10: source content `a`, backed-up content `b`, failing
comparison: the file is left un-copied with no diagnostic. -/
theorem diff_failure_silently_skips_witness :
    copyStep false (diffBroken ['e']) [(['p'], ['a'])]
      ⟨[(['p'], ['b'])], [['p']], [], []⟩ ['p']
      = ⟨[(['p'], ['b'])], [], [], []⟩ := by
  have h := diff_failure_silently_skips ['e'] [(['p'], ['a'])]
      [(['p'], ['b'])] [['p']] [] [] ['p'] ['a'] ['b']
      (by decide) (by decide) (by decide) (by decide)
  exact h.trans (by decide)

/-- C2: the delete pass removes from the backup tree exactly those paths
still remaining in the backup file set (`pend`): a remaining path whose
deletion succeeds is removed, a path not in the set is untouched, every
remaining path whose deletion fails is reported and processing continues
through the whole set. -/
theorem deletePass_removes_exactly (delOk : Str → Bool) (B : Fs)
    (pend : List Str) (acts : List Action) (errs : List Str) :
    (∀ q, lookupFs (deletePass false delOk ⟨B, pend, acts, errs⟩).backup q
        = if q ∈ pend ∧ delOk q = true then none else lookupFs B q) ∧
    (deletePass false delOk ⟨B, pend, acts, errs⟩).acts
        = acts ++ (pend.filter delOk).map Action.del ∧
    (deletePass false delOk ⟨B, pend, acts, errs⟩).errs
        = errs ++ pend.filter (fun p => !(delOk p)) := by
  have h := delLoop_char delOk pend ⟨B, pend, acts, errs⟩
  exact ⟨h.1, h.2.1, h.2.2.1⟩

/-! ### Dry run versus live run -/

theorem copyStep_dry_frame (d : Str → Option Str → Str × Option Str)
    (src : Fs) (st : RSt) (p : Str) :
    (copyStep true d src st p).backup = st.backup ∧
    (copyStep true d src st p).errs = st.errs := by
  unfold copyStep
  cases lookupFs src p with
  | none => simp
  | some c =>
    simp only
    split
    · split
      · simp
      · simp
    · simp

theorem copyPass_dry_frame (d : Str → Option Str → Str × Option Str)
    (src : Fs) (cands : List Str) (st : RSt) :
    (copyPass true d src st cands).backup = st.backup ∧
    (copyPass true d src st cands).errs = st.errs := by
  induction cands generalizing st with
  | nil => simp [copyPass]
  | cons p rest ih =>
    have h := copyStep_dry_frame d src st p
    have h2 := ih (copyStep true d src st p)
    exact ⟨h2.1.trans h.1, h2.2.trans h.2⟩

theorem delLoop_dry (delOk : Str → Bool) (l : List Str) (st : RSt) :
    l.foldl (delStep true delOk) st
      = { st with acts := st.acts ++ l.map Action.del } := by
  induction l generalizing st with
  | nil => simp
  | cons x rest ih =>
    rw [List.foldl_cons]
    have hstep : delStep true delOk st x
        = { st with acts := st.acts ++ [Action.del x] } := by
      simp [delStep]
    rw [hstep, ih]
    simp

theorem copyStep_eq_skip {d : Str → Option Str → Str × Option Str}
    {src : Fs} {st : RSt} {p c : Str} (dry : Bool)
    (h : lookupFs src p = some c) (hp : p ∈ st.pending)
    (hd : (d c (lookupFs st.backup p)).1 = []) :
    copyStep dry d src st p = { st with pending := removeKey st.pending p } := by
  simp [copyStep, h, hp, hd]

theorem copyStep_eq_copy_claimed {d : Str → Option Str → Str × Option Str}
    {src : Fs} {st : RSt} {p c : Str} (dry : Bool)
    (h : lookupFs src p = some c) (hp : p ∈ st.pending)
    (hd : ¬ (d c (lookupFs st.backup p)).1 = []) :
    copyStep dry d src st p
      = { st with backup := if dry then st.backup else updateFs st.backup p c,
                  pending := removeKey st.pending p,
                  acts := st.acts ++ [Action.copy p] } := by
  cases dry <;> simp [copyStep, h, hp, hd]

theorem copyStep_eq_copy_new {d : Str → Option Str → Str × Option Str}
    {src : Fs} {st : RSt} {p c : Str} (dry : Bool)
    (h : lookupFs src p = some c) (hp : p ∉ st.pending) :
    copyStep dry d src st p
      = { st with backup := if dry then st.backup else updateFs st.backup p c,
                  acts := st.acts ++ [Action.copy p] } := by
  cases dry <;> simp [copyStep, h, hp]

/-- One candidate step simulated in dry and live mode: the pending sets and
action lists evolve identically as long as the live backup still agrees with
the dry (initial) backup on every path still pending. -/
theorem copyStep_dry_live (d : Str → Option Str → Str × Option Str)
    (src : Fs) (p : Str) (stD stL : RSt)
    (hpend : stD.pending = stL.pending) (hacts : stD.acts = stL.acts)
    (hag : ∀ q ∈ stL.pending, lookupFs stL.backup q = lookupFs stD.backup q) :
    (copyStep true d src stD p).pending = (copyStep false d src stL p).pending ∧
    (copyStep true d src stD p).acts = (copyStep false d src stL p).acts ∧
    (∀ q ∈ (copyStep false d src stL p).pending,
        lookupFs (copyStep false d src stL p).backup q
          = lookupFs (copyStep true d src stD p).backup q) := by
  cases hsrc : lookupFs src p with
  | none =>
    rw [copyStep_src_none true d src stD p hsrc,
        copyStep_src_none false d src stL p hsrc]
    exact ⟨hpend, hacts, fun q hq => hag q hq⟩
  | some c =>
    by_cases hp : p ∈ stL.pending
    · have hpD : p ∈ stD.pending := by rw [hpend]; exact hp
      have hcmp : lookupFs stL.backup p = lookupFs stD.backup p := hag p hp
      by_cases hdiff : (d c (lookupFs stL.backup p)).1 = []
      · have hdiffD : (d c (lookupFs stD.backup p)).1 = [] := by
          rw [← hcmp]; exact hdiff
        rw [copyStep_eq_skip true hsrc hpD hdiffD,
            copyStep_eq_skip false hsrc hp hdiff]
        refine ⟨by simp [hpend], hacts, ?_⟩
        intro q hq
        simp only at hq ⊢
        exact hag q (mem_removeKey.mp hq).1
      · have hdiffD : ¬ (d c (lookupFs stD.backup p)).1 = [] := by
          rw [← hcmp]; exact hdiff
        rw [copyStep_eq_copy_claimed true hsrc hpD hdiffD,
            copyStep_eq_copy_claimed false hsrc hp hdiff]
        refine ⟨by simp [hpend], by simp [hacts], ?_⟩
        intro q hq
        simp only at hq ⊢
        have hqp : q ≠ p := (mem_removeKey.mp hq).2
        rw [if_neg (by simp), lookupFs_update_ne _ _ _ _ hqp]
        exact hag q (mem_removeKey.mp hq).1
    · have hpD : p ∉ stD.pending := by rw [hpend]; exact hp
      rw [copyStep_eq_copy_new true hsrc hpD, copyStep_eq_copy_new false hsrc hp]
      refine ⟨hpend, by simp [hacts], ?_⟩
      intro q hq
      simp only at hq ⊢
      have hqp : q ≠ p := fun hh => hp (hh ▸ hq)
      rw [if_neg (by simp), lookupFs_update_ne _ _ _ _ hqp]
      exact hag q hq

theorem copyPass_dry_live (d : Str → Option Str → Str × Option Str)
    (src : Fs) (cands : List Str) (stD stL : RSt)
    (hpend : stD.pending = stL.pending) (hacts : stD.acts = stL.acts)
    (hag : ∀ q ∈ stL.pending, lookupFs stL.backup q = lookupFs stD.backup q) :
    (copyPass true d src stD cands).pending
        = (copyPass false d src stL cands).pending ∧
    (copyPass true d src stD cands).acts
        = (copyPass false d src stL cands).acts := by
  induction cands generalizing stD stL with
  | nil => exact ⟨hpend, hacts⟩
  | cons p rest ih =>
    have h := copyStep_dry_live d src p stD stL hpend hacts hag
    exact ih (copyStep true d src stD p) (copyStep false d src stL p)
      h.1 h.2.1 (fun q hq => h.2.2 q hq)

/-- C5: for every initial backup tree and candidate list, a dry run performs
no mutation of the backup tree and prints no error, executes the same claim
bookkeeping as a live run, and reports exactly the action list that a
subsequent live run (with every deletion succeeding) would perform. -/
theorem dry_run_faithful (d : Str → Option Str → Str × Option Str)
    (src : Fs) (cands : List Str) (B : Fs) :
    (reconcile true d (fun _ => true) src cands B).backup = B ∧
    (reconcile true d (fun _ => true) src cands B).errs = [] ∧
    (reconcile true d (fun _ => true) src cands B).acts
      = (reconcile false d (fun _ => true) src cands B).acts := by
  have hcpD := copyPass_dry_frame d src cands ⟨B, keysFs B, [], []⟩
  have hsim := copyPass_dry_live d src cands ⟨B, keysFs B, [], []⟩
      ⟨B, keysFs B, [], []⟩ rfl rfl (fun _ _ => rfl)
  have hdryDel := delLoop_dry (fun _ => true)
      (copyPass true d src ⟨B, keysFs B, [], []⟩ cands).pending
      (copyPass true d src ⟨B, keysFs B, [], []⟩ cands)
  have hliveDel := delLoop_char (fun _ => true)
      (copyPass false d src ⟨B, keysFs B, [], []⟩ cands).pending
      (copyPass false d src ⟨B, keysFs B, [], []⟩ cands)
  refine ⟨?_, ?_, ?_⟩
  · show (deletePass true _ _).backup = B
    unfold deletePass
    rw [hdryDel]
    exact hcpD.1
  · show (deletePass true _ _).errs = []
    unfold deletePass
    rw [hdryDel]
    exact hcpD.2
  · show (deletePass true _ _).acts = (deletePass false _ _).acts
    unfold deletePass
    rw [hdryDel, hliveDel.2.1]
    simp only
    rw [hsim.1, hsim.2]
    simp

/-! ### Idempotence of the live run -/

theorem diffTrue_fst_nil_iff (c : Str) (b : Option Str) :
    (diffTrue c b).1 = [] ↔ b = some c := by
  unfold diffTrue
  split
  · simp [*]
  · simp [*]

theorem copyStep_pending (dry : Bool) (d : Str → Option Str → Str × Option Str)
    (src : Fs) (st : RSt) (q : Str) :
    (copyStep dry d src st q).pending
      = if q ∈ st.pending ∧ (lookupFs src q).isSome
        then removeKey st.pending q else st.pending := by
  cases hsrc : lookupFs src q with
  | none => simp [copyStep_src_none dry d src st q hsrc, hsrc]
  | some c =>
    by_cases hq : q ∈ st.pending
    · by_cases hdiff : (d c (lookupFs st.backup q)).1 = []
      · rw [copyStep_eq_skip dry hsrc hq hdiff]
        simp [hq, hsrc]
      · rw [copyStep_eq_copy_claimed dry hsrc hq hdiff]
        simp [hq, hsrc]
    · rw [copyStep_eq_copy_new dry hsrc hq]
      simp [hq]

/-- Membership in the backup file set after the copy/skip pass: a path is
still pending iff it was pending at the start and was never claimed, i.e. it
is not a candidate whose source file exists. -/
theorem copyPass_pending_char (dry : Bool)
    (d : Str → Option Str → Str × Option Str) (src : Fs)
    (cands : List Str) (st : RSt) (p : Str) :
    p ∈ (copyPass dry d src st cands).pending
      ↔ p ∈ st.pending ∧ ¬ (p ∈ cands ∧ (lookupFs src p).isSome) := by
  induction cands generalizing st with
  | nil => simp [copyPass]
  | cons q rest ih =>
    show p ∈ (copyPass dry d src (copyStep dry d src st q) rest).pending ↔ _
    rw [ih]
    rw [copyStep_pending]
    by_cases hclaim : q ∈ st.pending ∧ (lookupFs src q).isSome
    · rw [if_pos hclaim]
      rw [mem_removeKey]
      constructor
      · rintro ⟨⟨hp, hpq⟩, hnc⟩
        refine ⟨hp, ?_⟩
        rintro ⟨hmem, hsome⟩
        rcases List.mem_cons.mp hmem with h1 | h1
        · exact hpq h1
        · exact hnc ⟨h1, hsome⟩
      · rintro ⟨hp, hnc⟩
        have hpq : p ≠ q := by
          rintro rfl
          exact hnc ⟨List.mem_cons_self p rest, hclaim.2⟩
        exact ⟨⟨hp, hpq⟩, fun hc => hnc ⟨List.mem_cons_of_mem q hc.1, hc.2⟩⟩
    · rw [if_neg hclaim]
      constructor
      · rintro ⟨hp, hnc⟩
        refine ⟨hp, ?_⟩
        rintro ⟨hmem, hsome⟩
        rcases List.mem_cons.mp hmem with h1 | h1
        · subst h1
          exact hclaim ⟨hp, hsome⟩
        · exact hnc ⟨h1, hsome⟩
      · rintro ⟨hp, hnc⟩
        exact ⟨hp, fun hc => hnc ⟨List.mem_cons_of_mem q hc.1, hc.2⟩⟩

/-- Content of the backup tree after the live copy/skip pass with the honest
comparison oracle: every candidate whose source exists ends up with the
source's content; everything else is untouched. -/
theorem copyPass_backup_char (src : Fs) (cands : List Str) (st : RSt)
    (p : Str) :
    lookupFs (copyPass false diffTrue src st cands).backup p
      = if p ∈ cands ∧ (lookupFs src p).isSome
        then lookupFs src p else lookupFs st.backup p := by
  induction cands generalizing st with
  | nil => simp [copyPass]
  | cons q rest ih =>
    show lookupFs (copyPass false diffTrue src (copyStep false diffTrue src st q) rest).backup p = _
    rw [ih]
    by_cases hpq : p = q
    · subst hpq
      cases hsrc : lookupFs src p with
      | none =>
        rw [copyStep_src_none false diffTrue src st p hsrc]
        simp
      | some c =>
        by_cases hrest : p ∈ rest
        · rw [if_pos ⟨hrest, by simp⟩, if_pos ⟨List.mem_cons_self p rest, by simp⟩]
        · rw [if_neg (by simp [hrest]), if_pos ⟨List.mem_cons_self p rest, by simp⟩]
          by_cases hq : p ∈ st.pending
          · by_cases hdiff : (diffTrue c (lookupFs st.backup p)).1 = []
            · rw [copyStep_eq_skip false hsrc hq hdiff]
              have hb : lookupFs st.backup p = some c :=
                (diffTrue_fst_nil_iff c _).mp hdiff
              simpa using hb
            · rw [copyStep_eq_copy_claimed false hsrc hq hdiff]
              simp only [Bool.false_eq_true, if_false]
              rw [lookupFs_update_self]
          · rw [copyStep_eq_copy_new false hsrc hq]
            simp only [Bool.false_eq_true, if_false]
            rw [lookupFs_update_self]
    · have hcond : (p ∈ q :: rest ∧ (lookupFs src p).isSome)
          ↔ (p ∈ rest ∧ (lookupFs src p).isSome) := by
        constructor
        · rintro ⟨hmem, hs⟩
          rcases List.mem_cons.mp hmem with h1 | h1
          · exact absurd h1 hpq
          · exact ⟨h1, hs⟩
        · rintro ⟨hmem, hs⟩
          exact ⟨List.mem_cons_of_mem q hmem, hs⟩
      by_cases hrest : p ∈ rest ∧ (lookupFs src p).isSome
      · rw [if_pos hrest, if_pos (hcond.mpr hrest)]
      · rw [if_neg hrest, if_neg (fun hc => hrest (hcond.mp hc))]
        cases hsrc : lookupFs src q with
        | none => rw [copyStep_src_none false diffTrue src st q hsrc]
        | some c =>
          by_cases hq : q ∈ st.pending
          · by_cases hdiff : (diffTrue c (lookupFs st.backup q)).1 = []
            · rw [copyStep_eq_skip false hsrc hq hdiff]
            · rw [copyStep_eq_copy_claimed false hsrc hq hdiff]
              simp only [Bool.false_eq_true, if_false]
              rw [lookupFs_update_ne _ _ _ _ hpq]
          · rw [copyStep_eq_copy_new false hsrc hq]
            simp only [Bool.false_eq_true, if_false]
            rw [lookupFs_update_ne _ _ _ _ hpq]

/-- Content of the whole backup tree after a full live run: exactly the
candidates whose source file exists survive, with the source's content. -/
theorem runReconcile_backup_char (src : Fs) (cands : List Str) (B : Fs)
    (p : Str) :
    lookupFs (runReconcile src cands B).backup p
      = if p ∈ cands ∧ (lookupFs src p).isSome
        then lookupFs src p else none := by
  show lookupFs (deletePass false _ _).backup p = _
  unfold deletePass
  rw [(delLoop_char _ _ _).1 p]
  by_cases hcl : p ∈ cands ∧ (lookupFs src p).isSome
  · have hnp : p ∉ (copyPass false diffTrue src
        ⟨B, keysFs B, [], []⟩ cands).pending := by
      rw [copyPass_pending_char]
      rintro ⟨_, hn⟩
      exact hn hcl
    rw [if_neg (by rintro ⟨hmem, _⟩; exact hnp hmem)]
    rw [copyPass_backup_char, if_pos hcl, if_pos hcl]
  · rw [if_neg hcl]
    by_cases hk : p ∈ keysFs B
    · have hp : p ∈ (copyPass false diffTrue src
          ⟨B, keysFs B, [], []⟩ cands).pending := by
        rw [copyPass_pending_char]
        exact ⟨hk, fun hc => hcl hc⟩
      rw [if_pos ⟨hp, rfl⟩]
    · have hnp : p ∉ (copyPass false diffTrue src
          ⟨B, keysFs B, [], []⟩ cands).pending := by
        rw [copyPass_pending_char]
        rintro ⟨hk2, _⟩
        exact hk hk2
      rw [if_neg (by rintro ⟨hmem, _⟩; exact hnp hmem)]
      rw [copyPass_backup_char, if_neg hcl]
      cases hnone : lookupFs (⟨B, keysFs B, [], []⟩ : RSt).backup p with
      | none => rfl
      | some c =>
        exact absurd (mem_keysFs_iff.mpr (by
          simp only at hnone
          rw [hnone]
          simp)) hk

/-- On a state where every candidate with an existing source is both pending
and already backed up with identical content, the live copy/skip pass only
claims: it performs no copy, no error, no backup change. -/
theorem copyPass_no_action (src : Fs) (cands : List Str) (st : RSt)
    (hnd : cands.Nodup)
    (hgood : ∀ p ∈ cands, ∀ c, lookupFs src p = some c →
        lookupFs st.backup p = some c ∧ p ∈ st.pending) :
    (copyPass false diffTrue src st cands).backup = st.backup ∧
    (copyPass false diffTrue src st cands).acts = st.acts ∧
    (copyPass false diffTrue src st cands).errs = st.errs := by
  induction cands generalizing st with
  | nil => simp [copyPass]
  | cons q rest ih =>
    have hndr : rest.Nodup := (List.nodup_cons.mp hnd).2
    have hqnr : q ∉ rest := (List.nodup_cons.mp hnd).1
    have hfold : copyPass false diffTrue src st (q :: rest)
        = copyPass false diffTrue src (copyStep false diffTrue src st q) rest := rfl
    rw [hfold]
    cases hsrc : lookupFs src q with
    | none =>
      rw [copyStep_src_none false diffTrue src st q hsrc]
      exact ih st hndr
        (fun p hp c hc => hgood p (List.mem_cons_of_mem q hp) c hc)
    | some c =>
      obtain ⟨hb, hq⟩ := hgood q (List.mem_cons_self q rest) c hsrc
      have hdiff : (diffTrue c (lookupFs st.backup q)).1 = [] :=
        (diffTrue_fst_nil_iff c _).mpr hb
      rw [copyStep_eq_skip false hsrc hq hdiff]
      refine ih _ hndr ?_
      intro p hp c' hc'
      obtain ⟨hb', hp'⟩ := hgood p (List.mem_cons_of_mem q hp) c' hc'
      refine ⟨hb', ?_⟩
      simp only
      rw [mem_removeKey]
      exact ⟨hp', fun hh => hqnr (hh ▸ hp)⟩

/-- C9 (amended): running the Reconciler twice in succession with no
intervening changes to any source file performs zero copies and zero
deletions on the second run, provided the candidate list contains no
duplicate path.  (With a duplicated candidate the second occurrence is
copied unconditionally on every run, see the counterexample.) -/
theorem reconcile_idempotent (src : Fs) (cands : List Str) (B : Fs)
    (hnd : cands.Nodup) :
    (runReconcile src cands (runReconcile src cands B).backup).acts = [] := by
  have hchar := runReconcile_backup_char src cands B
  have hgood : ∀ p ∈ cands, ∀ c, lookupFs src p = some c →
      lookupFs (runReconcile src cands B).backup p = some c
        ∧ p ∈ keysFs (runReconcile src cands B).backup := by
    intro p hp c hc
    have h1 := hchar p
    rw [if_pos ⟨hp, by simp [hc]⟩, hc] at h1
    exact ⟨h1, mem_keysFs_iff.mpr (by rw [h1]; simp)⟩
  have hCP := copyPass_no_action src cands
      ⟨(runReconcile src cands B).backup,
        keysFs (runReconcile src cands B).backup, [], []⟩ hnd
      (fun p hp c hc => hgood p hp c hc)
  have hpend : (copyPass false diffTrue src
      ⟨(runReconcile src cands B).backup,
        keysFs (runReconcile src cands B).backup, [], []⟩ cands).pending
      = [] := by
    rw [List.eq_nil_iff_forall_not_mem]
    intro p hp
    rw [copyPass_pending_char] at hp
    obtain ⟨hk, hnc⟩ := hp
    have h1 : lookupFs (runReconcile src cands B).backup p ≠ none :=
      mem_keysFs_iff.mp hk
    rw [hchar p] at h1
    by_cases hcl : p ∈ cands ∧ (lookupFs src p).isSome
    · exact hnc hcl
    · rw [if_neg hcl] at h1
      exact h1 rfl
  show (deletePass false _ _).acts = []
  unfold deletePass
  rw [hpend]
  simpa using hCP.2.1

/-- Counterexample to C9 as stated: with the candidate list `[p, p]`
(duplicates are explicitly tolerated by the Relevance Resolver), a source
file `p` with content `a` and a backup already holding `p` with content `a`,
the second run still performs a copy: the first occurrence claims the path,
so the duplicate misses the backup file set and is copied unconditionally. -/
theorem reconcile_not_idempotent_on_duplicates :
    (runReconcile [(['p'], ['a'])] [['p'], ['p']]
      (runReconcile [(['p'], ['a'])] [['p'], ['p']] [(['p'], ['a'])]).backup).acts
      = [Action.copy ['p']] := by decide

/-- Witness for C9 (amended): one candidate, differing backup content; the
first run copies, the second run does nothing. -/
theorem reconcile_idempotent_witness :
    (runReconcile [(['p'], ['a'])] [['p']]
      (runReconcile [(['p'], ['a'])] [['p']] [(['p'], ['b'])]).backup).acts
      = [] :=
  reconcile_idempotent [(['p'], ['a'])] [['p']] [(['p'], ['b'])] (by decide)

/-! ### Per-project candidate collection (src/main.go lines 140-207)

The three `git` invocations are external collaborators; each is modelled by
its observed outcome `CmdOut`: captured stdout plus the error value
`exec.Command(...).Output()` returned.  The force-include expansion is an
input list here; its own computation is modelled separately below. -/

/-- Outcome of one external command invocation. -/
structure CmdOut : Type where
  out : Str
  err : Option Str
deriving DecidableEq, Repr

/-- Go's `strings.Split(s, "\n")`. -/
def splitLines (s : Str) : List Str :=
  List.splitOn '\n' s

/-- Go's `strings.TrimSpace`. -/
def trimSpace (s : Str) : Str :=
  ((s.dropWhile Char.isWhitespace).reverse.dropWhile Char.isWhitespace).reverse

/-- `filepath.Join(dir, f)` for the already-clean relative paths involved:
concatenation with one separator. -/
def joinPath (dir f : Str) : Str :=
  dir ++ '/' :: f

/-- The candidate list one project contributes (src/main.go lines 147-207):
`git ls-files` and `git branch --show-current` failures panic
(`Except.error`); the `git diff` unpushed-files invocation on line 163 binds
its error to `_`, so only its stdout is ever consulted; blank lines are
dropped and the project directory name is prefixed. -/
def projectCandidates (name : Str) (lsFilesCmd branchCmd unpushedCmd : CmdOut)
    (forceExpanded : List Str) : Except Str (List Str) :=
  match lsFilesCmd.err with
  | some e => Except.error e
  | none =>
    match branchCmd.err with
    | some e => Except.error e
    | none =>
      let untracked := splitLines lsFilesCmd.out
      let branch := trimSpace branchCmd.out
      let unpushed := if branch ≠ [] then splitLines unpushedCmd.out else []
      let included := untracked ++ unpushed ++ forceExpanded
      Except.ok ((included.filter (fun f => decide (¬ trimSpace f = []))).map
        (joinPath name))

instance {ε α : Type} [DecidableEq ε] [DecidableEq α] :
    DecidableEq (Except ε α) := fun a b =>
  match a, b with
  | .error e, .error f =>
    if h : e = f then .isTrue (by rw [h])
    else .isFalse (by intro hh; cases hh; exact h rfl)
  | .error _, .ok _ => .isFalse (by intro hh; cases hh)
  | .ok _, .error _ => .isFalse (by intro hh; cases hh)
  | .ok x, .ok y =>
    if h : x = y then .isTrue (by rw [h])
    else .isFalse (by intro hh; cases hh; exact h rfl)

/-- Counterexample to C4 as stated: a failure of the unpushed-files query
that is not the missing-upstream case (here an explicit error value with
empty stdout, as `git diff` produces when the remote is misconfigured) is
not fatal and is not surfaced: the run result is identical to that of a
fully successful invocation. -/
theorem unpushed_error_not_fatal :
    projectCandidates ['w'] ⟨['u'], none⟩ ⟨['m'], none⟩
        ⟨[], some ['f', 'a', 't', 'a', 'l']⟩ []
      = projectCandidates ['w'] ⟨['u'], none⟩ ⟨['m'], none⟩ ⟨[], none⟩ []
    ∧ projectCandidates ['w'] ⟨['u'], none⟩ ⟨['m'], none⟩
        ⟨[], some ['f', 'a', 't', 'a', 'l']⟩ []
      = Except.ok [['w', '/', 'u']] := by decide

/-- C4 (amended): the missing-upstream case degrades to an empty
unpushed-file list without failing the run — but so does every other failure
of that query: the per-project result never depends on the unpushed query's
error value, and whenever the untracked-files and branch-name queries
succeed the project's processing succeeds regardless of that error. -/
theorem unpushed_query_error_ignored (name : Str) (ls br : CmdOut)
    (o : Str) (e e' : Option Str) (f : List Str) :
    projectCandidates name ls br ⟨o, e⟩ f
      = projectCandidates name ls br ⟨o, e'⟩ f ∧
    (ls.err = none → br.err = none →
      ∃ r, projectCandidates name ls br ⟨o, e⟩ f = Except.ok r) := by
  constructor
  · cases hls : ls.err with
    | some x => simp [projectCandidates, hls]
    | none =>
      cases hbr : br.err with
      | some x => simp [projectCandidates, hls, hbr]
      | none => simp [projectCandidates, hls, hbr]
  · intro h1 h2
    simp [projectCandidates, h1, h2]

/-- Witness for C4 (amended): result with a failing unpushed query equals
the fully successful result. -/
theorem unpushed_query_error_ignored_witness :
    projectCandidates ['w'] ⟨['u'], none⟩ ⟨['m'], none⟩ ⟨[], some ['x']⟩ []
      = Except.ok [['w', '/', 'u']] := by
  have h := unpushed_query_error_ignored ['w'] ⟨['u'], none⟩ ⟨['m'], none⟩
      [] (some ['x']) none []
  obtain ⟨r, hr⟩ := h.2 rfl rfl
  exact h.1.trans (by decide)

theorem mem_dropWhile_of_not {p : Char → Bool} {l : Str} {c : Char}
    (hc : c ∈ l) (hp : p c = false) : c ∈ l.dropWhile p := by
  induction l with
  | nil => cases hc
  | cons x xs ih =>
    by_cases hx : p x = true
    · rw [List.dropWhile_cons_of_pos hx]
      rcases List.mem_cons.mp hc with h1 | h1
      · subst h1
        rw [hx] at hp
        cases hp
      · exact ih h1
    · rw [List.dropWhile_cons_of_neg hx]
      exact hc

theorem trimSpace_ne_nil {s : Str} {c : Char} (hc : c ∈ s)
    (hw : c.isWhitespace = false) : trimSpace s ≠ [] := by
  intro h
  unfold trimSpace at h
  rw [List.reverse_eq_nil_iff] at h
  rw [List.dropWhile_eq_nil_iff] at h
  have h1 : c ∈ (s.dropWhile Char.isWhitespace).reverse :=
    List.mem_reverse.mpr (mem_dropWhile_of_not hc hw)
  have := h c h1
  rw [hw] at this
  cases this

/-- C7: every entry of a project's candidate list is non-blank and is some
entry of the union of the untracked list, the unpushed list and the
force-include expansion, prefixed with the project's directory name. -/
theorem candidates_wellformed (name : Str) (ls br up : CmdOut)
    (f : List Str) (res : List Str)
    (h : projectCandidates name ls br up f = Except.ok res) :
    ∀ e ∈ res, trimSpace e ≠ [] ∧
      ∃ g ∈ splitLines ls.out
          ++ (if trimSpace br.out ≠ [] then splitLines up.out else [])
          ++ f,
        trimSpace g ≠ [] ∧ e = joinPath name g := by
  cases hls : ls.err with
  | some x => simp [projectCandidates, hls] at h
  | none =>
    cases hbr : br.err with
    | some x => simp [projectCandidates, hls, hbr] at h
    | none =>
      simp only [projectCandidates, hls, hbr, Except.ok.injEq] at h
      subst h
      intro e he
      rw [List.mem_map] at he
      obtain ⟨g, hg, rfl⟩ := he
      rw [List.mem_filter] at hg
      have hgne : trimSpace g ≠ [] := by
        have := hg.2
        simp at this
        exact this
      refine ⟨?_, g, hg.1, hgne, rfl⟩
      exact trimSpace_ne_nil
        (by simp [joinPath] : '/' ∈ joinPath name g) (by decide)

/-- Witness for C7 at a concrete project: the resulting entry is non-blank. -/
theorem candidates_wellformed_witness :
    trimSpace (joinPath ['w'] ['u']) ≠ [] :=
  (candidates_wellformed ['w'] ⟨['u'], none⟩ ⟨['m'], none⟩ ⟨[], none⟩ []
      [joinPath ['w'] ['u']] (by decide) (joinPath ['w'] ['u']) (by decide)).1

/-! ### Directory trees: the backup snapshot walk, the prune pass and the
force-include expansion

Relative paths are component lists (`List Str`); the backup root's relative
path `"."` is the empty component list `[]`.  `filepath.WalkDir` visits an
entry before its children (pre-order); sibling order (lexical in Go) is kept
abstract as the child-list order, which no claim depends on. -/

inductive FsTree : Type where
  | file (name content : Str)
  | dir (name : Str) (children : List FsTree)

def nameOf : FsTree → Str
  | .file n _ => n
  | .dir n _ => n

mutual

/-- Directory entries contributed by one tree entry rooted at path
`pre ++ [its name]`, in `filepath.WalkDir` visit order. -/
def walkDirsFrom (pre : List Str) : FsTree → List (List Str)
  | .file _ _ => []
  | .dir n cs => (pre ++ [n]) :: walkDirsList (pre ++ [n]) cs

def walkDirsList (pre : List Str) : List FsTree → List (List Str)
  | [] => []
  | t :: ts => walkDirsFrom pre t ++ walkDirsList pre ts

end

/-- `backedUpDirRelPaths` (src/main.go lines 102-117): the walk of the
backup root (children `cs`) records the root itself first, under the
relative path `"."` (here `[]`), then every directory in pre-order. -/
def snapshotDirs (cs : List FsTree) : List (List Str) :=
  [] :: walkDirsList [] cs

/-- `p` is a proper ancestor path of `q`. -/
def strictlyBelow (p q : List Str) : Prop :=
  ∃ r, r ≠ [] ∧ q = p ++ r

/-- `p` is an ancestor path of `q` or equal to it. -/
def below (p q : List Str) : Prop :=
  ∃ r, q = p ++ r

/-- The order in which the prune loop (src/main.go lines 266-276) visits the
directory sequence: indices `len-1` down to `1`, i.e. the reversed tail —
index 0, the backup root, is never visited. -/
def pruneSeq (dirs : List (List Str)) : List (List Str) :=
  (dirs.drop 1).reverse

/-- Cause of an `os.Remove` failure on a directory. -/
inductive RmErr : Type where
  | notExist
  | notEmpty
  | other (msg : Str)
deriving DecidableEq, Repr

/-- Go's `os.IsNotExist` on the modelled causes. -/
def isNotExistErr : RmErr → Bool
  | .notExist => true
  | _ => false

/-- The prune pass (src/main.go lines 266-276): attempt `os.Remove` on each
directory of the reversed tail of the sequence; a failure is printed unless
`os.IsNotExist` holds for it.  Returns the reported directories. -/
def prunePass (rm : List Str → Option RmErr)
    (dirs : List (List Str)) : List (List Str) :=
  (pruneSeq dirs).filterMap (fun d =>
    match rm d with
    | none => none
    | some e => if isNotExistErr e then none else some d)

mutual

/-- Relative paths of the regular files the `filepath.WalkDir` of the
force-include loop (src/main.go lines 181-194) collects from one entry. -/
def filesUnder (pre : List Str) : FsTree → List (List Str)
  | .file n _ => [pre ++ [n]]
  | .dir n cs => filesUnderList (pre ++ [n]) cs

def filesUnderList (pre : List Str) : List FsTree → List (List Str)
  | [] => []
  | t :: ts => filesUnder pre t ++ filesUnderList pre ts

end

/-- Look up a directory entry by name (first match, as the file system
resolves a component). -/
def findIn (cs : List FsTree) (n : Str) : Option FsTree :=
  cs.find? (fun t => nameOf t == n)

/-- Resolve a non-empty relative component path against a child list, as
`os.Stat(filepath.Join(projectDirPath, rel))` does: every intermediate
component must name a directory. -/
def findEntry (cs : List FsTree) : List Str → Option FsTree
  | [] => none
  | n :: rest =>
    match findIn cs n with
    | none => none
    | some t =>
      match rest with
      | [] => some t
      | _ :: _ =>
        match t with
        | .file _ _ => none
        | .dir _ cs' => findEntry cs' rest

/-- The relative path resolves to a regular file. -/
def isFileAt (cs : List FsTree) (s : List Str) : Bool :=
  match findEntry cs s with
  | some (.file _ _) => true
  | _ => false

/-- One force-include entry expanded for one project (src/main.go lines
171-198): a missing path is skipped silently, a regular file is included
as-is, a directory contributes every regular file beneath it. -/
def expandForceInclude (proj : List FsTree) (rel : List Str) :
    List (List Str) :=
  match findEntry proj rel with
  | none => []
  | some (.file _ _) => [rel]
  | some (.dir _ cs) => filesUnderList rel cs

mutual

/-- Well-formed directory trees: sibling names are distinct (two entries of
one real directory cannot share a name). -/
def wfTree : FsTree → Bool
  | .file _ _ => true
  | .dir _ cs => wfList cs

def wfList : List FsTree → Bool
  | [] => true
  | t :: ts => wfTree t && !(ts.any (fun u => nameOf u == nameOf t)) && wfList ts

end

/-! ### The walk is a pre-order: parents precede children -/

theorem below_of_strict {p q : List Str} (h : strictlyBelow p q) : below p q := by
  rcases h with ⟨r, _, hq⟩
  exact ⟨r, hq⟩

theorem below_total {p d q : List Str} (hp : below p q) (hd : below d q) :
    below p d ∨ below d p := by
  rcases hp with ⟨a, ha⟩
  rcases hd with ⟨b, hb⟩
  rcases le_total p.length d.length with h | h
  · left
    have hp' : q.take p.length = p := by rw [ha]; exact List.take_left p a
    have hd' : q.take d.length = d := by rw [hb]; exact List.take_left d b
    have hpd : d.take p.length = p := by
      rw [← hd', List.take_take, min_eq_left h]
      exact hp'
    have hsplit : d = d.take p.length ++ d.drop p.length :=
      (List.take_append_drop p.length d).symm
    rw [hpd] at hsplit
    exact ⟨d.drop p.length, hsplit⟩
  · right
    have hp' : q.take p.length = p := by rw [ha]; exact List.take_left p a
    have hd' : q.take d.length = d := by rw [hb]; exact List.take_left d b
    have hdp : p.take d.length = d := by
      rw [← hp', List.take_take, min_eq_left h]
      exact hd'
    have hsplit : p = p.take d.length ++ p.drop d.length :=
      (List.take_append_drop d.length p).symm
    rw [hdp] at hsplit
    exact ⟨p.drop d.length, hsplit⟩

theorem no_strict_between {pre p : List Str} {n : Str}
    (h1 : strictlyBelow pre p) (h2 : strictlyBelow p (pre ++ [n])) : False := by
  rcases h1 with ⟨r, hr, rfl⟩
  rcases h2 with ⟨s, hs, hps⟩
  rw [List.append_assoc] at hps
  have h3 : [n] = r ++ s := List.append_cancel_left hps
  have hlen := congrArg List.length h3
  rcases r with _ | ⟨x, r'⟩
  · exact hr rfl
  rcases s with _ | ⟨y, s'⟩
  · exact hs rfl
  simp only [List.length_cons, List.length_append, List.length_nil] at hlen
  omega

mutual

theorem walkFrom_below (pre : List Str) :
    ∀ (t : FsTree), ∀ q ∈ walkDirsFrom pre t, strictlyBelow pre q
  | .file n c => by simp [walkDirsFrom]
  | .dir n cs => by
    intro q hq
    simp only [walkDirsFrom] at hq
    rcases List.mem_cons.mp hq with h1 | h1
    · exact ⟨[n], by simp, by rw [h1]⟩
    · rcases walkList_below (pre ++ [n]) cs q h1 with ⟨r, hr, hqr⟩
      exact ⟨[n] ++ r, by simp, by rw [hqr]; simp⟩

theorem walkList_below (pre : List Str) :
    ∀ (ts : List FsTree), ∀ q ∈ walkDirsList pre ts, strictlyBelow pre q
  | [] => by simp [walkDirsList]
  | t :: ts => by
    intro q hq
    simp only [walkDirsList] at hq
    rcases List.mem_append.mp hq with h1 | h1
    · exact walkFrom_below pre t q h1
    · exact walkList_below pre ts q h1

end

mutual

theorem walkFrom_parent_first (pre : List Str) :
    ∀ (t : FsTree) (l₁ : List (List Str)) (q : List Str)
      (l₂ : List (List Str)),
      walkDirsFrom pre t = l₁ ++ q :: l₂ →
      ∀ p, strictlyBelow p q → strictlyBelow pre p → p ∈ l₁
  | .file n c => by
    intro l₁ q l₂ h p hpq hprep
    simp only [walkDirsFrom] at h
    cases l₁ <;> simp at h
  | .dir n cs => by
    intro l₁ q l₂ h p hpq hprep
    simp only [walkDirsFrom] at h
    cases l₁ with
    | nil =>
      simp only [List.nil_append] at h
      injection h with h1 _
      subst h1
      exact (no_strict_between hprep hpq).elim
    | cons a l₁' =>
      injection h with h1 h2
      subst h1
      have hqmem : q ∈ walkDirsList (pre ++ [n]) cs := by
        rw [h2]
        exact List.mem_append_right _ (List.mem_cons_self q l₂)
      have hdq : strictlyBelow (pre ++ [n]) q :=
        walkList_below (pre ++ [n]) cs q hqmem
      rcases below_total (below_of_strict hpq) (below_of_strict hdq) with hc | hc
      · have hpe : p = pre ++ [n] := by
          rcases hc with ⟨u, hu⟩
          cases u with
          | nil => simpa using hu.symm
          | cons x u' =>
            exact (no_strict_between hprep ⟨x :: u', by simp, hu⟩).elim
        rw [hpe]
        exact List.mem_cons_self _ _
      · rcases hc with ⟨u, hu⟩
        cases u with
        | nil =>
          rw [List.append_nil] at hu
          rw [hu]
          exact List.mem_cons_self _ _
        | cons x u' =>
          have hstrict : strictlyBelow (pre ++ [n]) p := ⟨x :: u', by simp, hu⟩
          exact List.mem_cons_of_mem _
            (walkList_parent_first (pre ++ [n]) cs l₁' q l₂ h2 p hpq hstrict)

theorem walkList_parent_first (pre : List Str) :
    ∀ (ts : List FsTree) (l₁ : List (List Str)) (q : List Str)
      (l₂ : List (List Str)),
      walkDirsList pre ts = l₁ ++ q :: l₂ →
      ∀ p, strictlyBelow p q → strictlyBelow pre p → p ∈ l₁
  | [] => by
    intro l₁ q l₂ h
    simp only [walkDirsList] at h
    cases l₁ <;> simp at h
  | t :: ts => by
    intro l₁ q l₂ h p hpq hprep
    simp only [walkDirsList] at h
    rcases List.append_eq_append_iff.mp h with ⟨a', ha1, ha2⟩ | ⟨c', hc1, hc2⟩
    · have hmem := walkList_parent_first pre ts a' q l₂ ha2 p hpq hprep
      rw [ha1]
      exact List.mem_append_right _ hmem
    · cases c' with
      | nil =>
        simp only [List.nil_append] at hc2
        have hmem := walkList_parent_first pre ts [] q l₂ hc2.symm p hpq hprep
        exact absurd hmem (List.not_mem_nil p)
      | cons c c'' =>
        simp only [List.cons_append] at hc2
        injection hc2 with hq1 hq2
        subst hq1
        exact walkFrom_parent_first pre t l₁ q c'' hc1 p hpq hprep

end

/-- C6: the backup snapshot's directory sequence is produced in pre-order —
the backup root (relative path `"."`, modelled `[]`) occupies index 0 and
every ancestor of an entry appears at an earlier position — and the prune
pass's visit order (the reversed tail of the sequence) never contains the
root, so the backup root is never an `os.Remove` target. -/
theorem snapshot_preorder_root_safe (cs : List FsTree) :
    (snapshotDirs cs).get? 0 = some [] ∧
    (∀ l₁ q l₂, snapshotDirs cs = l₁ ++ q :: l₂ →
      ∀ p, strictlyBelow p q → p ∈ l₁) ∧
    [] ∉ pruneSeq (snapshotDirs cs) := by
  refine ⟨rfl, ?_, ?_⟩
  · intro l₁ q l₂ h p hpq
    cases l₁ with
    | nil =>
      simp only [snapshotDirs, List.nil_append] at h
      have hq : q = [] := by injection h with h1 _; exact h1.symm
      subst hq
      rcases hpq with ⟨r, hr, hqr⟩
      exact absurd (List.append_eq_nil.mp hqr.symm).2 hr
    | cons a l₁' =>
      simp only [snapshotDirs, List.cons_append] at h
      have ha : a = [] := by injection h with h1 _; exact h1.symm
      have h2 : walkDirsList [] cs = l₁' ++ q :: l₂ := by
        injection h
      subst ha
      by_cases hp : p = []
      · rw [hp]
        exact List.mem_cons_self _ _
      · exact List.mem_cons_of_mem _
          (walkList_parent_first [] cs l₁' q l₂ h2 p hpq ⟨p, hp, by simp⟩)
  · intro hmem
    simp only [pruneSeq, snapshotDirs, List.drop_succ_cons, List.drop_zero] at hmem
    rw [List.mem_reverse] at hmem
    rcases walkList_below [] cs [] hmem with ⟨r, hr, habs⟩
    exact hr (by simpa using habs.symm)

/-- Witness for C6: in the snapshot of a tree `a/b`, the ancestor `a` of the
entry `a/b` appears in the prefix before it. -/
theorem snapshot_preorder_root_safe_witness :
    [['a']] ∈ [([] : List Str), [['a']]] :=
  (snapshot_preorder_root_safe [FsTree.dir ['a'] [FsTree.dir ['b'] []]]).2.1
    [[], [['a']]] [['a'], ['b']] [] rfl [['a']] ⟨[['b']], by simp, rfl⟩

/-- C3 (code bug): the prune loop tests `os.IsNotExist` where its own
comment says "if the error wasn't due to the dir not being empty": a removal
attempt failing because the directory is non-empty IS reported, and a
removal failing because the directory no longer exists is silently ignored —
for both causes the opposite of the claimed behaviour.  Directory sequence
`[".", "a"]`; the loop visits only `"a"`. -/
theorem prune_notEmpty_reported :
    prunePass (fun _ => some RmErr.notEmpty) [[], [['a']]] = [[['a']]]
    ∧ prunePass (fun _ => some RmErr.notExist) [[], [['a']]] = []
    ∧ prunePass (fun _ => some (RmErr.other ['e'])) [[], [['a']]] = [[['a']]] := by
  decide

/-! ### The force-include expansion collects exactly the regular files -/

theorem isFileAt_nil (s : List Str) : isFileAt [] s = false := by
  cases s <;> simp [isFileAt, findEntry, findIn]

theorem findEntry_cons (t : FsTree) (ts : List FsTree) (m : Str)
    (rest : List Str) :
    findEntry (t :: ts) (m :: rest)
      = if nameOf t = m then findEntry [t] (m :: rest)
        else findEntry ts (m :: rest) := by
  by_cases hm : nameOf t = m
  · have h1 : findIn (t :: ts) m = some t := by
      simp [findIn, List.find?_cons_of_pos, hm]
    have h2 : findIn [t] m = some t := by
      simp [findIn, List.find?_cons_of_pos, hm]
    rw [if_pos hm]
    simp only [findEntry, h1, h2]
  · have h1 : findIn (t :: ts) m = findIn ts m := by
      simp [findIn, List.find?_cons_of_neg, hm]
    rw [if_neg hm]
    simp only [findEntry, h1]

theorem isFileAt_cons (t : FsTree) (ts : List FsTree) (m : Str)
    (rest : List Str) :
    isFileAt (t :: ts) (m :: rest)
      = if nameOf t = m then isFileAt [t] (m :: rest)
        else isFileAt ts (m :: rest) := by
  unfold isFileAt
  rw [findEntry_cons]
  by_cases hm : nameOf t = m <;> simp [hm]

theorem findIn_single_hit {t : FsTree} {m : Str} (h : nameOf t = m) :
    findIn [t] m = some t := by
  unfold findIn
  rw [List.find?_cons_of_pos _ (by simp [h])]

theorem findIn_single_miss {t : FsTree} {m : Str} (h : ¬ nameOf t = m) :
    findIn [t] m = none := by
  unfold findIn
  rw [List.find?_cons_of_neg _ (by simp [h])]
  rfl

theorem isFileAt_single_file (n c : Str) (s : List Str) :
    isFileAt [FsTree.file n c] s = true ↔ s = [n] := by
  cases s with
  | nil =>
    constructor
    · intro h
      exact absurd h (by simp [isFileAt, findEntry])
    · intro h
      cases h
  | cons m rest =>
    by_cases hm : n = m
    · subst hm
      cases rest with
      | nil =>
        simp [isFileAt, findEntry, findIn_single_hit (by rfl : nameOf (FsTree.file n c) = n)]
      | cons r rs =>
        simp [isFileAt, findEntry, findIn_single_hit (by rfl : nameOf (FsTree.file n c) = n)]
    · have hfind : findIn [FsTree.file n c] m = none :=
        findIn_single_miss (by simpa [nameOf] using hm)
      simp only [isFileAt, findEntry, hfind]
      constructor
      · intro h
        cases h
      · intro h
        injection h with h1 _
        exact absurd h1.symm hm

theorem isFileAt_single_dir (n : Str) (cs : List FsTree) (s : List Str) :
    isFileAt [FsTree.dir n cs] s = true
      ↔ ∃ rest, rest ≠ [] ∧ s = n :: rest ∧ isFileAt cs rest = true := by
  cases s with
  | nil =>
    constructor
    · intro h
      exact absurd h (by simp [isFileAt, findEntry])
    · rintro ⟨rest, _, heq, _⟩
      cases heq
  | cons m rest =>
    by_cases hm : n = m
    · subst hm
      have hfind : findIn [FsTree.dir n cs] n = some (FsTree.dir n cs) :=
        findIn_single_hit (by rfl)
      cases rest with
      | nil =>
        simp only [isFileAt, findEntry, hfind]
        constructor
        · intro h
          cases h
        · rintro ⟨rest', hne, heq, _⟩
          injection heq with _ h2
          exact absurd h2.symm hne
      | cons r rs =>
        simp only [isFileAt, findEntry, hfind]
        constructor
        · intro h
          exact ⟨r :: rs, by simp, rfl, h⟩
        · rintro ⟨rest', _, heq, hf⟩
          injection heq with _ h2
          rw [← h2] at hf
          exact hf
    · have hfind : findIn [FsTree.dir n cs] m = none :=
        findIn_single_miss (by simpa [nameOf] using hm)
      simp only [isFileAt, findEntry, hfind]
      constructor
      · intro h
        cases h
      · rintro ⟨rest', _, heq, _⟩
        injection heq with h1 _
        exact absurd h1.symm hm

theorem nameOf_of_isFileAt_single {t : FsTree} {m : Str} {rest : List Str}
    (h : isFileAt [t] (m :: rest) = true) : nameOf t = m := by
  by_contra hm
  have hfind : findIn [t] m = none := by
    simp [findIn, List.find?_cons_of_neg, hm]
  simp [isFileAt, findEntry, hfind] at h

theorem exists_name_of_isFileAt {ts : List FsTree} {m : Str}
    {rest : List Str} (h : isFileAt ts (m :: rest) = true) :
    ∃ u ∈ ts, nameOf u = m := by
  cases hfind : findIn ts m with
  | none => simp [isFileAt, findEntry, hfind] at h
  | some u =>
    refine ⟨u, List.mem_of_find?_eq_some hfind, ?_⟩
    have := List.find?_some hfind
    simpa using this

theorem wfList_cons_iff (t : FsTree) (ts : List FsTree) :
    wfList (t :: ts) = true
      ↔ wfTree t = true
        ∧ (ts.any (fun u => nameOf u == nameOf t)) = false
        ∧ wfList ts = true := by
  simp [wfList, Bool.and_eq_true, Bool.not_eq_true', and_assoc]

theorem wfList_mem {cs : List FsTree} (hwf : wfList cs = true)
    {t : FsTree} (ht : t ∈ cs) : wfTree t = true := by
  induction cs with
  | nil => cases ht
  | cons u us ih =>
    rcases List.mem_cons.mp ht with h1 | h1
    · rw [h1]
      exact ((wfList_cons_iff u us).mp hwf).1
    · exact ih ((wfList_cons_iff u us).mp hwf).2.2 h1

theorem wfTree_findEntry :
    ∀ (rel : List Str) (cs : List FsTree), wfList cs = true →
      ∀ t, findEntry cs rel = some t → wfTree t = true
  | [] => by
    intro cs _ t h
    simp [findEntry] at h
  | n :: rest => by
    intro cs hwf t h
    simp only [findEntry] at h
    cases hfind : findIn cs n with
    | none =>
      rw [hfind] at h
      cases h
    | some u =>
      rw [hfind] at h
      have hu : wfTree u = true :=
        wfList_mem hwf (List.mem_of_find?_eq_some hfind)
      cases rest with
      | nil =>
        have : u = t := by injection h
        rw [← this]
        exact hu
      | cons r rs =>
        cases u with
        | file nm c => cases h
        | dir nm cs' =>
          exact wfTree_findEntry (r :: rs) cs' (by simpa [wfTree] using hu) t h

mutual

theorem filesUnder_char (pre : List Str) :
    ∀ (t : FsTree), wfTree t = true → ∀ q,
      (q ∈ filesUnder pre t
        ↔ ∃ s, s ≠ [] ∧ q = pre ++ s ∧ isFileAt [t] s = true)
  | .file n c => by
    intro _ q
    simp only [filesUnder, List.mem_singleton]
    constructor
    · intro hq
      exact ⟨[n], by simp, hq, (isFileAt_single_file n c [n]).mpr rfl⟩
    · rintro ⟨s, _, rfl, hf⟩
      rw [(isFileAt_single_file n c s).mp hf]
  | .dir n cs => by
    intro hwf q
    have hwf' : wfList cs = true := by simpa [wfTree] using hwf
    simp only [filesUnder]
    rw [filesUnderList_char (pre ++ [n]) cs hwf' q]
    constructor
    · rintro ⟨s', hs', rfl, hf⟩
      exact ⟨n :: s', by simp, by simp,
        (isFileAt_single_dir n cs (n :: s')).mpr ⟨s', hs', rfl, hf⟩⟩
    · rintro ⟨s, _, rfl, hf⟩
      rcases (isFileAt_single_dir n cs s).mp hf with ⟨rest, hrne, hseq, hrf⟩
      subst hseq
      exact ⟨rest, hrne, by simp, hrf⟩

theorem filesUnderList_char (pre : List Str) :
    ∀ (ts : List FsTree), wfList ts = true → ∀ q,
      (q ∈ filesUnderList pre ts
        ↔ ∃ s, s ≠ [] ∧ q = pre ++ s ∧ isFileAt ts s = true)
  | [] => by
    intro _ q
    simp [filesUnderList, isFileAt_nil]
  | t :: ts => by
    intro hwf q
    obtain ⟨hwt, hfresh, hwts⟩ := (wfList_cons_iff t ts).mp hwf
    simp only [filesUnderList, List.mem_append]
    rw [filesUnder_char pre t hwt q, filesUnderList_char pre ts hwts q]
    constructor
    · rintro (⟨s, hs, rfl, hf⟩ | ⟨s, hs, rfl, hf⟩)
      · cases s with
        | nil => exact absurd rfl hs
        | cons m rest =>
          refine ⟨m :: rest, hs, rfl, ?_⟩
          rw [isFileAt_cons, if_pos (nameOf_of_isFileAt_single hf)]
          exact hf
      · cases s with
        | nil => exact absurd rfl hs
        | cons m rest =>
          refine ⟨m :: rest, hs, rfl, ?_⟩
          have hm : nameOf t ≠ m := by
            rcases exists_name_of_isFileAt hf with ⟨u, hu, hum⟩
            intro hh
            have := List.any_eq_false.mp hfresh u hu  -- hmm name check below
            rw [hum, hh] at this
            simp at this
          rw [isFileAt_cons, if_neg hm]
          exact hf
    · rintro ⟨s, hs, rfl, hf⟩
      cases s with
      | nil => exact absurd rfl hs
      | cons m rest =>
        rw [isFileAt_cons] at hf
        by_cases hm : nameOf t = m
        · rw [if_pos hm] at hf
          exact Or.inl ⟨m :: rest, hs, rfl, hf⟩
        · rw [if_neg hm] at hf
          exact Or.inr ⟨m :: rest, hs, rfl, hf⟩

end

/-- C8: for one force-include entry and one well-formed project tree: a
path that does not resolve expands to nothing (silent skip); a path naming a
regular file expands to exactly that path; a path naming a directory
expands to exactly the regular files strictly beneath it (no directory
entries), as project-relative paths. -/
theorem force_include_expansion (proj : List FsTree) (rel : List Str)
    (hwf : wfList proj = true) :
    (findEntry proj rel = none → expandForceInclude proj rel = []) ∧
    (∀ n c, findEntry proj rel = some (FsTree.file n c) →
      expandForceInclude proj rel = [rel]) ∧
    (∀ n cs, findEntry proj rel = some (FsTree.dir n cs) →
      ∀ q, q ∈ expandForceInclude proj rel
        ↔ ∃ s, s ≠ [] ∧ q = rel ++ s ∧ isFileAt cs s = true) := by
  refine ⟨?_, ?_, ?_⟩
  · intro h
    simp [expandForceInclude, h]
  · intro n c h
    simp [expandForceInclude, h]
  · intro n cs h q
    have hwfd : wfTree (FsTree.dir n cs) = true := wfTree_findEntry rel proj hwf _ h
    have hwfcs : wfList cs = true := by simpa [wfTree] using hwfd
    simp only [expandForceInclude, h]
    exact filesUnderList_char rel cs hwfcs q

/-- Witness for C8: force-including directory `d` of a project holding
`d/f` and `g` yields exactly `d/f`. -/
theorem force_include_expansion_witness :
    [['d'], ['f']] ∈ expandForceInclude
      [FsTree.dir ['d'] [FsTree.file ['f'] ['x']], FsTree.file ['g'] ['y']]
      [['d']] :=
  ((force_include_expansion
      [FsTree.dir ['d'] [FsTree.file ['f'] ['x']], FsTree.file ['g'] ['y']]
      [['d']] (by rfl)).2.2 ['d'] [FsTree.file ['f'] ['x']] rfl
      [['d'], ['f']]).mpr ⟨[['f']], by simp, rfl, rfl⟩

end GLB
